import Mathlib

/-!
A verification development for the board-state core of the Demolito chess
engine (`position.cc`, `types.c`, `uci.h`, `htable.h`).

Conventions of the embedding:
* C `int` squares become `Int` (they may hold the sentinel `NB_SQUARE = 64`
  and take part in signed arithmetic such as `m.fsq + push`); at every bit
  operation the source asserts `square_ok`, so the conversion `Int.toNat`
  is faithful there.
* 64-bit bitboards and keys become `Nat`; all operations used (`&`, `|`,
  `^`, `<<` by less than 64) never overflow 64 bits when their operands are
  below `2 ^ 64`, so no truncation is modelled.
* The Zobrist key service (`zobrist.h` / `zobrist.cc`) and the low-level
  bit-set primitives (`bitboard.h`) are not part of the excerpt; they are
  modelled from the spec where marked.
-/

/-! ### Constants from `types.h` (WHITE/BLACK, piece kinds, board geometry) -/

def WHITE : Nat := 0

def BLACK : Nat := 1

def NB_COLOR : Nat := 2

def KNIGHT : Nat := 0

def BISHOP : Nat := 1

def ROOK : Nat := 2

def QUEEN : Nat := 3

def KING : Nat := 4

def PAWN : Nat := 5

def NB_PIECE : Nat := 6

def NB_SQUARE : Nat := 64

def A8 : Nat := 56

def UP : Int := 8

def DOWN : Int := -8

/-! ### Coordinate utilities from `types.c` -/

/-- `square_from(rank, file) = NB_FILE * rank + file` (`types.c`).
The `BOUNDS` asserts require `rank < 8` and `file < 8`. -/
def square_from (rank file : Nat) : Nat := 8 * rank + file

/-- `rank_of(square) = square / NB_FILE` (`types.c`). -/
def rank_of (square : Nat) : Nat := square / 8

/-- `file_of(square) = square % NB_FILE` (`types.c`). -/
def file_of (square : Nat) : Nat := square % 8

/-- `opposite(color) = color ^ BLACK` (`types.c`); `position.cc` calls this
`opp_color`. -/
def opp_color (color : Nat) : Nat := color ^^^ 1

/-- `push_inc(color)`: the pawn-push increment, `PushInc[2] = {UP, DOWN}`
(`types.c`). -/
def push_inc (color : Nat) : Int := if color = WHITE then UP else DOWN

/-! ### Bit-set primitives (`bitboard.h`, external collaborator) -/

/-- Modelled from the spec: `bb::test(b, sq)` tests one bit of a 64-bit set. -/
def bbTest (b sq : Nat) : Bool := b.testBit sq

/-- Modelled from the spec: `bb::set(b, sq)` sets one bit (`b |= 1 << sq`). -/
def bbSet (b sq : Nat) : Nat := b ||| (1 <<< sq)

/-- Modelled from the spec: clearing one bit of a 64-bit set
(`b &= ~(1ULL << sq)`, the complement taken in 64 bits). -/
def bbClear (b sq : Nat) : Nat := b &&& ((2 ^ 64 - 1) ^^^ (1 <<< sq))

/-- Modelled from the spec: `bb::rank(r)`, the mask of the eight squares of
rank `r`. -/
def rankBB (r : Nat) : Nat := 255 <<< (8 * r)

/-! ### The Zobrist key service (`zobrist.h`, external collaborator) -/

/-- Modelled from the spec: the Zobrist Key Service exposes a fixed
pseudo-random 64-bit value per (side, piece-kind, square), a side-to-move
value, a value per en-passant square (`ep`, zero at the `NB_SQUARE`
sentinel), and per-rook-square castling values (`castlingKeys`). -/
structure Zobrist where
  key : Nat → Nat → Nat → Nat
  turnKey : Nat
  ep : Int → Nat
  castlingKeys : Nat → Nat

/-- Modelled from the spec: `zobrist::castling(castlableRooks)` XORs one
fixed key per rook square of the castling-rights bitmask. -/
def Zobrist.castling (Z : Zobrist) (b : Nat) : Nat :=
  (List.range 64).foldl (fun k i => if b.testBit i then k ^^^ Z.castlingKeys i else k) 0

/-! ### The Position data model (`position.h` / `position.cc`) -/

/-- The `Position` snapshot: `byColor[2]` and `byPiece[6]` occupancy
bit-sets (total functions on the index, as the C arrays), castling-rights
rook squares, side to move, en-passant target (64 = none), the reversible
move counter and the incrementally maintained fingerprint. -/
structure Position where
  byColor : Nat → Nat
  byPiece : Nat → Nat
  castlableRooks : Nat
  turn : Nat
  epSquare : Int
  rule50 : Int
  key : Nat

/-- `Position::occupied()`. -/
def Position.occupied (P : Position) : Nat := P.byColor WHITE ||| P.byColor BLACK

/-- `Position::get(color, piece) = byColor[color] & byPiece[piece]`. -/
def Position.get (P : Position) (color piece : Nat) : Nat :=
  P.byColor color &&& P.byPiece piece

/-- `Position::clear()` (the no-argument overload): `memset(this, 0, ...)`. -/
def Position.cleared : Position :=
  { byColor := fun _ => 0, byPiece := fun _ => 0, castlableRooks := 0
    turn := 0, epSquare := 0, rule50 := 0, key := 0 }

/-- `Position::set(color, piece, sq)`: set the two occupancy bits and XOR
the Zobrist term into `key`. -/
def Position.set (Z : Zobrist) (P : Position) (color piece sq : Nat) : Position :=
  { byColor := fun c => if c = color then bbSet (P.byColor c) sq else P.byColor c
    byPiece := fun p => if p = piece then bbSet (P.byPiece p) sq else P.byPiece p
    key := P.key ^^^ Z.key color piece sq
    castlableRooks := P.castlableRooks, turn := P.turn
    epSquare := P.epSquare, rule50 := P.rule50 }

/-- `Position::clear(color, piece, sq)`: clear the two occupancy bits and
XOR the Zobrist term into `key`. -/
def Position.clear (Z : Zobrist) (P : Position) (color piece sq : Nat) : Position :=
  { byColor := fun c => if c = color then bbClear (P.byColor c) sq else P.byColor c
    byPiece := fun p => if p = piece then bbClear (P.byPiece p) sq else P.byPiece p
    key := P.key ^^^ Z.key color piece sq
    castlableRooks := P.castlableRooks, turn := P.turn
    epSquare := P.epSquare, rule50 := P.rule50 }

/-- `Position::color_on(sq)`. -/
def Position.color_on (P : Position) (sq : Nat) : Nat :=
  if bbTest (P.byColor WHITE) sq then WHITE else BLACK

/-- `Position::piece_on(sq)`: pawns first, then the kinds in ascending
order. The C function falls off the end (an asserted contract violation)
when no piece set holds the square; that unreachable outcome is rendered as
`NB_PIECE`. -/
def Position.piece_on (P : Position) (sq : Nat) : Nat :=
  if bbTest (P.byPiece PAWN) sq then PAWN
  else if bbTest (P.byPiece KNIGHT) sq then KNIGHT
  else if bbTest (P.byPiece BISHOP) sq then BISHOP
  else if bbTest (P.byPiece ROOK) sq then ROOK
  else if bbTest (P.byPiece QUEEN) sq then QUEEN
  else if bbTest (P.byPiece KING) sq then KING
  else NB_PIECE

/-- One `while (b) k ^= f(bb::pop_lsb(b))` loop of `Position::key_ok`,
folded over the 64 possible set bits of a board. -/
def xorBits (f : Nat → Nat) (b : Nat) (k : Nat) : Nat :=
  (List.range 64).foldl (fun a i => if b.testBit i then a ^^^ f i else a) k

/-- The double loop of `Position::key_ok`: XOR the Zobrist term of every
occupied (color, piece, square), and the turn term when Black is to move. -/
def boardKey (Z : Zobrist) (P : Position) : Nat :=
  let k := (List.range 2).foldl
    (fun a color => (List.range 6).foldl
      (fun a' piece => xorBits (Z.key color piece) (P.get color piece) a') a) 0
  if P.turn = BLACK then k ^^^ Z.turnKey else k

/-- `Position::key_ok()`: recompute the fingerprint from scratch over the
`byColor`/`byPiece`/`turn` state (no en-passant or castling term appears in
this recomputation in the source) and compare it with `key`. -/
def Position.key_ok (Z : Zobrist) (P : Position) : Bool :=
  boardKey Z P == P.key

/-- Modelled from the spec: the fingerprint recomputed from scratch over the
current `byColor`/`byPiece`/`turn` state with the en-passant term (from
`epSquare`) and the castling-rights term (from `castlableRooks`) included in
that same recomputation. -/
def specFullKey (Z : Zobrist) (P : Position) : Nat :=
  (boardKey Z P ^^^ Z.ep P.epSquare) ^^^ Z.castling P.castlableRooks

/-! ### `Position::set_pos` (FEN parsing) -/

/-- `PieceLabel[color].find(c)` over `{"NBRQKP", "nbrqkp"}`, returning the
(color, piece) pair when `piece_ok` holds. -/
def pieceOfChar (c : Char) : Option (Nat × Nat) :=
  if c = 'N' then some (WHITE, KNIGHT)
  else if c = 'B' then some (WHITE, BISHOP)
  else if c = 'R' then some (WHITE, ROOK)
  else if c = 'Q' then some (WHITE, QUEEN)
  else if c = 'K' then some (WHITE, KING)
  else if c = 'P' then some (WHITE, PAWN)
  else if c = 'n' then some (BLACK, KNIGHT)
  else if c = 'b' then some (BLACK, BISHOP)
  else if c = 'r' then some (BLACK, ROOK)
  else if c = 'q' then some (BLACK, QUEEN)
  else if c = 'k' then some (BLACK, KING)
  else if c = 'p' then some (BLACK, PAWN)
  else none

/-- One step of the piece-placement loop of `set_pos`: digits (`isdigit`,
codes 48-57) skip squares, `'/'` moves down one rank (`sq -= 16`), and a
recognised piece letter places a piece at `sq` and advances `sq`. -/
def placeChar (Z : Zobrist) (st : Int × Position) (c : Char) : Int × Position :=
  if 48 ≤ c.toNat ∧ c.toNat ≤ 57 then (st.1 + ((c.toNat : Int) - 48), st.2)
  else if c = '/' then (st.1 - 16, st.2)
  else
    match pieceOfChar c with
    | some cp => (st.1 + 1, Position.set Z st.2 cp.1 cp.2 st.1.toNat)
    | none => st

/-- One step of the castling-rights loop of `set_pos`; `isupper` and
`toupper` are the ASCII classifiers used by the source.  Note the source
sets `castlableRooks` at the (possibly stale) `sq` unconditionally, so the
local `sq` is threaded through. -/
def castleChar (st : Int × Position) (c : Char) : Int × Position :=
  let n := c.toNat
  let color : Nat := if 65 ≤ n ∧ n ≤ 90 then WHITE else BLACK
  let r : Nat := 7 * color
  let u : Nat := if 97 ≤ n ∧ n ≤ 122 then n - 32 else n
  let sq : Int :=
    if u = 75 then (square_from r 7 : Nat)
    else if u = 81 then (square_from r 0 : Nat)
    else if 65 ≤ u ∧ u ≤ 72 then (square_from r (u - 65) : Nat)
    else st.1
  (sq, { st.2 with castlableRooks := bbSet st.2.castlableRooks sq.toNat })

/-- The whitespace-separated fields read by `std::istringstream` in
`set_pos` (as character lists). -/
def fieldsAux (cs : List Char) (cur : List Char) : List (List Char) :=
  match cs with
  | [] => if cur = [] then [] else [cur.reverse]
  | c :: rest =>
    if c = ' ' then
      if cur = [] then fieldsAux rest [] else cur.reverse :: fieldsAux rest []
    else fieldsAux rest (c :: cur)

/-- The fields of a position description. -/
def fenTokens (fen : String) : List (List Char) := fieldsAux fen.data []

/-- `is >> rule50` on the half-move token: an optional minus sign followed
by digits; a failed extraction leaves the zero from `memset`. -/
def natOfDigits (cs : List Char) : Option Nat :=
  cs.foldl (fun acc c =>
    acc.bind (fun n => if 48 ≤ c.toNat ∧ c.toNat ≤ 57 then some (10 * n + (c.toNat - 48)) else none))
    (some 0)

/-- Signed integer extraction for the half-move counter field. -/
def parseIntFEN (cs : List Char) : Int :=
  match cs with
  | '-' :: rest => -((natOfDigits rest).getD 0 : Int)
  | _ => ((natOfDigits cs).getD 0 : Int)

/-- The piece-placement block of `set_pos`: `sq = A8`, then one `placeChar`
step per character, starting from the `memset`-cleared object. -/
def placementStage (Z : Zobrist) (fen : String) : Int × Position :=
  ((fenTokens fen).getD 0 []).foldl (placeChar Z) ((A8 : Nat), Position.cleared)

/-- The side-to-move block of `set_pos`. -/
def turnStage (Z : Zobrist) (fen : String) (P : Position) : Position :=
  if (fenTokens fen).getD 1 [] = ['w'] then { P with turn := WHITE }
  else { P with turn := BLACK, key := P.key ^^^ Z.turnKey }

/-- The castling-rights block of `set_pos` (threading the stale `sq`). -/
def castleStage (fen : String) (st : Int × Position) : Int × Position :=
  ((fenTokens fen).getD 2 []).foldl castleChar st

/-- The en-passant block of `set_pos`. -/
def epStage (fen : String) (P : Position) : Position :=
  let eps := (fenTokens fen).getD 3 []
  { P with epSquare := if eps ≠ ['-'] then ((square_from ((eps.getD 1 ' ').toNat - 49) ((eps.getD 0 ' ').toNat - 97) : Nat) : Int) else (NB_SQUARE : Nat) }

/-- The half-move-counter block of `set_pos`. -/
def rule50Stage (fen : String) (P : Position) : Position :=
  { P with rule50 := parseIntFEN ((fenTokens fen).getD 4 []) }

/-- `Position::set_pos(fen)`: clear, then parse placement (from `A8`), side
to move, castling rights, en-passant square and the 50-move counter. -/
def Position.set_pos (Z : Zobrist) (fen : String) : Position :=
  let st := placementStage Z fen
  let P := turnStage Z fen st.2
  let P := (castleStage fen (st.1, P)).2
  let P := epStage fen P
  rule50Stage fen P

/-! ### `Position::play` -/

/-- The move type consumed by `play` (`move.h`, external): origin square,
destination square, promotion kind. -/
structure Move where
  fsq : Int
  tsq : Int
  prom : Nat

/-- The capture block of `Position::play`: if the destination is occupied,
reset `rule50`, remove the occupant under `color_on(tsq)` (not simply the
opponent) and, when the occupant is a rook, drop its castling-rights bit. -/
def Position.captureStage (Z : Zobrist) (P : Position) (m : Move) : Position :=
  let capture := if bbTest P.occupied m.tsq.toNat then P.piece_on m.tsq.toNat else NB_PIECE
  if capture ≠ NB_PIECE then
    let P1 := { P with rule50 := 0 }
    let P2 := Position.clear Z P1 (P.color_on m.tsq.toNat) capture m.tsq.toNat
    if capture = ROOK then { P2 with castlableRooks := bbClear P2.castlableRooks m.tsq.toNat }
    else P2
  else P

/-- The pawn block of `Position::play`: reset `rule50`, set `epSquare` on a
double push, then handle the en-passant capture or the promotion. -/
def Position.pawnStage (Z : Zobrist) (before : Position) (us them piece : Nat)
    (m : Move) (P : Position) : Position :=
  let push := push_inc us
  let P := { P with rule50 := 0, epSquare := if m.tsq = m.fsq + 2 * push then m.fsq + push else (NB_SQUARE : Nat) }
  if m.tsq = before.epSquare then Position.clear Z P them piece (m.tsq - push).toNat
  else if rank_of m.tsq.toNat = 7 ∨ rank_of m.tsq.toNat = 0 then
    Position.set Z (Position.clear Z P us piece m.tsq.toNat) us m.prom m.tsq.toNat
  else P

/-- The non-pawn block of `Position::play`: clear `epSquare`; a rook move
drops its own castling right; a king move drops the side's rights and, when
the destination held a friendly piece in `before` (the KxR encoding),
relocates king and rook to the fixed castling files on the king's rank. -/
def Position.nonPawnStage (Z : Zobrist) (before : Position) (us piece : Nat)
    (m : Move) (P : Position) : Position :=
  let P := { P with epSquare := (NB_SQUARE : Nat) }
  if piece = ROOK then { P with castlableRooks := bbClear P.castlableRooks m.fsq.toNat }
  else if piece = KING then
    let P := { P with castlableRooks := P.castlableRooks &&& ((2 ^ 64 - 1) ^^^ rankBB (us * 7)) }
    if bbTest (before.byColor us) m.tsq.toNat then
      let r := rank_of m.fsq.toNat
      let ksq := if m.tsq > m.fsq then square_from r 6 else square_from r 2
      let rsq := if m.tsq > m.fsq then square_from r 5 else square_from r 3
      Position.set Z (Position.set Z (Position.clear Z P us KING m.tsq.toNat) us KING ksq) us ROOK rsq
    else P
  else P

/-- `Position::play(before, m)`: copy `before`, bump `rule50`, capture,
relocate the mover, run the pawn or non-pawn block, flip the turn and fold
the turn / en-passant / castling Zobrist deltas into `key`. -/
def Position.play (Z : Zobrist) (before : Position) (m : Move) : Position :=
  let P := { before with rule50 := before.rule50 + 1 }
  let us := P.turn
  let them := opp_color us
  let piece := P.piece_on m.fsq.toNat
  let P := Position.captureStage Z P m
  let P := Position.set Z (Position.clear Z P us piece m.fsq.toNat) us piece m.tsq.toNat
  let P := if piece = PAWN then Position.pawnStage Z before us them piece m P
           else Position.nonPawnStage Z before us piece m P
  { P with
    turn := them
    key := ((P.key ^^^ Z.turnKey) ^^^ (Z.ep before.epSquare ^^^ Z.ep P.epSquare))
      ^^^ Z.castling (before.castlableRooks ^^^ P.castlableRooks) }

/-! ### A concrete spec-modelled Zobrist instance

Modelled from the spec: `zobrist.cc` is not part of the excerpt; the spec
only requires fixed pseudo-random per-(side, kind, square) values, a
side-to-move value, nonzero en-passant terms (per file, zero at the "none"
sentinel) and nonzero castling terms. -/

def demoZ : Zobrist :=
  { key := fun c p sq => 2 ^ sq ^^^ (777 * c + 131 * p + 1)
    turnKey := 2 ^ 63
    ep := fun sq => if 0 ≤ sq ∧ sq < 64 then 2 ^ (sq.toNat % 8 + 8) else 0
    castlingKeys := fun sq => sq + 1 }

/-- The standard start position description from the spec's concrete
scenario. -/
def startFEN : String := "rnbqkbnr/pppppppp/8/8/8/8/PPPPPPPP/RNBQKBNR w KQkq - 0 1"

/-! ### Projection lemmas for the mutators -/

@[simp] theorem Position.set_castlableRooks (Z : Zobrist) (P : Position) (c p s : Nat) :
    (Position.set Z P c p s).castlableRooks = P.castlableRooks := rfl

@[simp] theorem Position.clear_castlableRooks (Z : Zobrist) (P : Position) (c p s : Nat) :
    (Position.clear Z P c p s).castlableRooks = P.castlableRooks := rfl

@[simp] theorem Position.set_turn (Z : Zobrist) (P : Position) (c p s : Nat) :
    (Position.set Z P c p s).turn = P.turn := rfl

@[simp] theorem Position.clear_turn (Z : Zobrist) (P : Position) (c p s : Nat) :
    (Position.clear Z P c p s).turn = P.turn := rfl

@[simp] theorem Position.set_epSquare (Z : Zobrist) (P : Position) (c p s : Nat) :
    (Position.set Z P c p s).epSquare = P.epSquare := rfl

@[simp] theorem Position.clear_epSquare (Z : Zobrist) (P : Position) (c p s : Nat) :
    (Position.clear Z P c p s).epSquare = P.epSquare := rfl

@[simp] theorem Position.set_rule50 (Z : Zobrist) (P : Position) (c p s : Nat) :
    (Position.set Z P c p s).rule50 = P.rule50 := rfl

@[simp] theorem Position.clear_rule50 (Z : Zobrist) (P : Position) (c p s : Nat) :
    (Position.clear Z P c p s).rule50 = P.rule50 := rfl

theorem Position.set_byColor (Z : Zobrist) (P : Position) (c p s x : Nat) :
    (Position.set Z P c p s).byColor x = if x = c then bbSet (P.byColor x) s else P.byColor x := rfl

theorem Position.set_byPiece (Z : Zobrist) (P : Position) (c p s x : Nat) :
    (Position.set Z P c p s).byPiece x = if x = p then bbSet (P.byPiece x) s else P.byPiece x := rfl

theorem Position.clear_byColor (Z : Zobrist) (P : Position) (c p s x : Nat) :
    (Position.clear Z P c p s).byColor x = if x = c then bbClear (P.byColor x) s else P.byColor x := rfl

theorem Position.clear_byPiece (Z : Zobrist) (P : Position) (c p s x : Nat) :
    (Position.clear Z P c p s).byPiece x = if x = p then bbClear (P.byPiece x) s else P.byPiece x := rfl

@[simp] theorem Position.piece_on_rule50 (P : Position) (x : Int) (sq : Nat) :
    Position.piece_on { P with rule50 := x } sq = Position.piece_on P sq := rfl

/-! ### Bit-level toolkit -/

theorem testBit_bbSet (b s i : Nat) :
    (bbSet b s).testBit i = (b.testBit i || decide (s = i)) := by
  simp [bbSet, Nat.testBit_lor, Nat.one_shiftLeft, Nat.testBit_two_pow]

theorem testBit_bbClear (b s i : Nat) (hs : s < 64) :
    (bbClear b s).testBit i = (b.testBit i && decide (i < 64) && !decide (s = i)) := by
  simp only [bbClear, Nat.testBit_land, Nat.testBit_xor, Nat.testBit_two_pow_sub_one,
    Nat.one_shiftLeft, Nat.testBit_two_pow]
  by_cases h1 : i < 64 <;> by_cases h2 : s = i <;> simp [h1, h2] <;> omega

theorem land_self (a : Nat) : a &&& a = a := by
  apply Nat.eq_of_testBit_eq
  intro i
  simp [Nat.testBit_land]

theorem land_sub_trans {a b c : Nat} (h1 : a &&& b = a) (h2 : b &&& c = b) :
    a &&& c = a := by
  calc a &&& c = (a &&& b) &&& c := by rw [h1]
  _ = a &&& (b &&& c) := Nat.land_assoc ..
  _ = a &&& b := by rw [h2]
  _ = a := h1

theorem land_mask_sub (a m : Nat) : (a &&& m) &&& a = a &&& m := by
  calc (a &&& m) &&& a = a &&& (m &&& a) := Nat.land_assoc ..
  _ = a &&& (a &&& m) := by rw [Nat.land_comm m a]
  _ = (a &&& a) &&& m := (Nat.land_assoc ..).symm
  _ = a &&& m := by rw [land_self]

theorem bbClear_sub (b s : Nat) : bbClear b s &&& b = bbClear b s := by
  simpa [bbClear] using land_mask_sub b ((2 ^ 64 - 1) ^^^ (1 <<< s))

/-! ### Stage-level facts used by several claims -/

theorem Position.captureStage_epSquare (Z : Zobrist) (P : Position) (m : Move) :
    (Position.captureStage Z P m).epSquare = P.epSquare := by
  simp only [Position.captureStage]
  repeat' split
  all_goals rfl

theorem Position.captureStage_turn (Z : Zobrist) (P : Position) (m : Move) :
    (Position.captureStage Z P m).turn = P.turn := by
  simp only [Position.captureStage]
  repeat' split
  all_goals rfl

theorem Position.captureStage_castl_sub (Z : Zobrist) (P : Position) (m : Move) :
    (Position.captureStage Z P m).castlableRooks &&& P.castlableRooks =
      (Position.captureStage Z P m).castlableRooks := by
  simp only [Position.captureStage]
  repeat' split
  all_goals first
  | exact bbClear_sub ..
  | exact land_self ..

theorem Position.pawnStage_castlableRooks (Z : Zobrist) (before : Position)
    (us them piece : Nat) (m : Move) (P : Position) :
    (Position.pawnStage Z before us them piece m P).castlableRooks = P.castlableRooks := by
  simp only [Position.pawnStage]
  repeat' split
  all_goals rfl

theorem Position.pawnStage_epSquare (Z : Zobrist) (before : Position)
    (us them piece : Nat) (m : Move) (P : Position) :
    (Position.pawnStage Z before us them piece m P).epSquare =
      if m.tsq = m.fsq + 2 * push_inc us then m.fsq + push_inc us else (NB_SQUARE : Nat) := by
  simp only [Position.pawnStage]
  repeat' split
  all_goals rfl

theorem Position.nonPawnStage_epSquare (Z : Zobrist) (before : Position)
    (us piece : Nat) (m : Move) (P : Position) :
    (Position.nonPawnStage Z before us piece m P).epSquare = (NB_SQUARE : Nat) := by
  simp only [Position.nonPawnStage]
  repeat' split
  all_goals rfl

theorem Position.nonPawnStage_castl_sub (Z : Zobrist) (before : Position)
    (us piece : Nat) (m : Move) (P : Position) :
    (Position.nonPawnStage Z before us piece m P).castlableRooks &&& P.castlableRooks =
      (Position.nonPawnStage Z before us piece m P).castlableRooks := by
  simp only [Position.nonPawnStage]
  repeat' split
  all_goals first
  | exact bbClear_sub ..
  | exact land_mask_sub ..
  | exact land_self ..

/-! ### Claim C10: coordinate round-trip -/

/-- C10: for every rank `r < 8` and file `f < 8`,
`rank_of (square_from r f) = r`, `file_of (square_from r f) = f`, and
`square_from r f = 8*r + f` is a valid square index below 64. -/
theorem c10_coordinate_roundtrip (r f : Nat) (hr : r < 8) (hf : f < 8) :
    rank_of (square_from r f) = r ∧ file_of (square_from r f) = f ∧ square_from r f < 64 := by
  unfold rank_of file_of square_from
  omega

/-- Witness for C10 at rank 3, file 5. -/
theorem c10_coordinate_roundtrip_witness :
    (3 : Nat) < 8 ∧ (5 : Nat) < 8 ∧
    (rank_of (square_from 3 5) = 3 ∧ file_of (square_from 3 5) = 5 ∧ square_from 3 5 < 64) :=
  ⟨by decide, by decide, c10_coordinate_roundtrip 3 5 (by decide) (by decide)⟩

/-! ### Claim C7: the en-passant square after `play` -/

/-- C7: after any `play`, the new `epSquare` is the passed-over square
`fsq + push` exactly when the moving piece is a pawn and the destination is
two pawn pushes from the origin, and the `NB_SQUARE` sentinel in every
other case. -/
theorem c7_epSquare_after_play (Z : Zobrist) (P : Position) (m : Move) :
    (Position.play Z P m).epSquare =
      if Position.piece_on P m.fsq.toNat = PAWN ∧ m.tsq = m.fsq + 2 * push_inc P.turn
      then m.fsq + push_inc P.turn else (NB_SQUARE : Nat) := by
  simp only [Position.play]
  split
  next h =>
    rw [Position.pawnStage_epSquare]
    simp only [Position.piece_on_rule50] at h
    simp [h]
  next h =>
    rw [Position.nonPawnStage_epSquare]
    simp only [Position.piece_on_rule50] at h
    simp [h]

/-! ### Claim C5: castling rights only shrink under `play` -/

/-- C5: the child's `castlableRooks` is a subset of the parent's: ANDing it
with the parent's set leaves it unchanged, for every move; `play` never adds
a castling-rights bit. -/
theorem c5_castlable_monotone (Z : Zobrist) (P : Position) (m : Move) :
    (Position.play Z P m).castlableRooks &&& P.castlableRooks =
      (Position.play Z P m).castlableRooks := by
  simp only [Position.play]
  split
  · simp only [Position.pawnStage_castlableRooks, Position.set_castlableRooks,
      Position.clear_castlableRooks]
    exact Position.captureStage_castl_sub ..
  · refine land_sub_trans (Position.nonPawnStage_castl_sub ..) ?_
    simp only [Position.set_castlableRooks, Position.clear_castlableRooks]
    exact Position.captureStage_castl_sub ..

/-! ### Claim C3: `play` never mutates the parent object -/

/-- Modelled after the two-object heap of `Position::play(before, m)`: the
method runs on a destination object distinct from `before` (first
component); every statement of the method assigns fields of `*this` only,
so the parent object (second component) is only ever read. -/
def Position.playOn (Z : Zobrist) (_dst before : Position) (m : Move) : Position × Position :=
  (Position.play Z before m, before)

/-- C3: running `play` on any destination object distinct from the parent
leaves every field of the parent unchanged, and the destination ends up as
the functional `play` result. -/
theorem c3_play_preserves_parent (Z : Zobrist) (dst P : Position) (m : Move) :
    (Position.playOn Z dst P m).2.byColor = P.byColor ∧
    (Position.playOn Z dst P m).2.byPiece = P.byPiece ∧
    (Position.playOn Z dst P m).2.castlableRooks = P.castlableRooks ∧
    (Position.playOn Z dst P m).2.turn = P.turn ∧
    (Position.playOn Z dst P m).2.epSquare = P.epSquare ∧
    (Position.playOn Z dst P m).2.rule50 = P.rule50 ∧
    (Position.playOn Z dst P m).2.key = P.key ∧
    (Position.playOn Z dst P m).1 = Position.play Z P m :=
  ⟨rfl, rfl, rfl, rfl, rfl, rfl, rfl, rfl⟩

/-! ### Claim C1: the incremental-hash invariant is broken in this source -/

set_option maxRecDepth 200000 in
/-- C1 (failing): from the standard start position, after the double pawn
push e2-e4, the code's own from-scratch check `key_ok` rejects the
maintained `key` (the `assert(key_ok())` at the end of `play` fires),
because `play` folds the en-passant delta into `key` while `key_ok` — and
`set_pos`, which also never folds the initial castling term — recompute
without those terms; and already after `set_pos` the stored `key` differs
from the spec's full recomputation `specFullKey` (which includes the
en-passant and castling terms). -/
theorem c1_key_invariant_broken :
    Position.key_ok demoZ (Position.play demoZ (Position.set_pos demoZ startFEN) ⟨12, 28, 0⟩) = false ∧
    (Position.set_pos demoZ startFEN).key ≠ specFullKey demoZ (Position.set_pos demoZ startFEN) := by
  constructor
  · decide
  · decide

/-! ### Claim C6: king-takes-rook castling relocates to the fixed files -/

/-- C6: when the moving piece is the king and the destination held a
friendly piece in the parent (the KxR castling encoding), the child has the
king on file G and the rook on file F (destination greater than origin,
kingside), or the king on file C and the rook on file D (queenside), on the
rank the king originally occupied. -/
theorem c6_castling_relocation (Z : Zobrist) (P : Position) (m : Move)
    (hk : Position.piece_on P m.fsq.toNat = KING)
    (hf : bbTest (P.byColor P.turn) m.tsq.toNat = true) :
    (if m.tsq > m.fsq then
      bbTest ((Position.play Z P m).get P.turn KING) (square_from (rank_of m.fsq.toNat) 6) = true ∧
      bbTest ((Position.play Z P m).get P.turn ROOK) (square_from (rank_of m.fsq.toNat) 5) = true
    else
      bbTest ((Position.play Z P m).get P.turn KING) (square_from (rank_of m.fsq.toNat) 2) = true ∧
      bbTest ((Position.play Z P m).get P.turn ROOK) (square_from (rank_of m.fsq.toNat) 3) = true) := by
  have hf' : (P.byColor P.turn).testBit m.tsq.toNat = true := hf
  by_cases hgt : m.tsq > m.fsq <;>
    simp [Position.play, Position.piece_on_rule50, hk, Position.nonPawnStage, hf, hf', hgt,
      Position.get, Position.set, Position.clear, bbTest, testBit_bbSet, Nat.testBit_land,
      KING, PAWN, ROOK]

/-! ### The occupancy invariant (claims C4, C8, C2) -/

/-- The bit of square `i` in the union of the two colour sets. -/
def colorBit (P : Position) (i : Nat) : Bool :=
  (P.byColor 0).testBit i || (P.byColor 1).testBit i

/-- The bit of square `i` in the union of the six piece-kind sets. -/
def pieceBit (P : Position) (i : Nat) : Bool :=
  (P.byPiece 0).testBit i || (P.byPiece 1).testBit i || (P.byPiece 2).testBit i ||
  (P.byPiece 3).testBit i || (P.byPiece 4).testBit i || (P.byPiece 5).testBit i

/-- Well-formedness of the board representation: a valid side to move,
64-bit bounded sets, disjoint colour sets, pairwise disjoint piece sets, and
the colour union equal to the piece union (each occupied square is in
exactly one set of each family). -/
def Wf (P : Position) : Prop :=
  P.turn < 2 ∧
  (∀ c, c < 2 → P.byColor c < 2 ^ 64) ∧
  (∀ p, p < 6 → P.byPiece p < 2 ^ 64) ∧
  (∀ i, i < 64 → ¬((P.byColor 0).testBit i = true ∧ (P.byColor 1).testBit i = true)) ∧
  (∀ i, i < 64 → ∀ p, p < 6 → ∀ q, q < 6 → p ≠ q →
    ¬((P.byPiece p).testBit i = true ∧ (P.byPiece q).testBit i = true)) ∧
  (∀ i, i < 64 → colorBit P i = pieceBit P i)

theorem testBit_ge64 {b : Nat} (hb : b < 2 ^ 64) {i : Nat} (hi : 64 ≤ i) : b.testBit i = false :=
  Nat.testBit_lt_two_pow (lt_of_lt_of_le hb (Nat.pow_le_pow_right (by norm_num) hi))

theorem bit_lt_64 {b i : Nat} (hb : b < 2 ^ 64) (h : b.testBit i = true) : i < 64 := by
  by_contra h64
  rw [testBit_ge64 hb (by omega)] at h
  simp at h

theorem bbSet_lt {b s : Nat} (hb : b < 2 ^ 64) (hs : s < 64) : bbSet b s < 2 ^ 64 := by
  refine Nat.or_lt_two_pow hb ?_
  rw [Nat.one_shiftLeft]
  exact Nat.pow_lt_pow_right (by norm_num) hs

theorem bbClear_le {b s : Nat} : bbClear b s ≤ b := Nat.and_le_left

theorem occupied_testBit (P : Position) (i : Nat) :
    P.occupied.testBit i = colorBit P i := by
  simp [Position.occupied, colorBit, WHITE, BLACK, Nat.testBit_lor]

theorem Wf.colorBit_eq_pieceBit {P : Position} (h : Wf P) (i : Nat) :
    colorBit P i = pieceBit P i := by
  rcases lt_or_ge i 64 with hi | hi
  · exact h.2.2.2.2.2 i hi
  · simp [colorBit, pieceBit,
      testBit_ge64 (h.2.1 0 (by norm_num)) hi, testBit_ge64 (h.2.1 1 (by norm_num)) hi,
      testBit_ge64 (h.2.2.1 0 (by norm_num)) hi, testBit_ge64 (h.2.2.1 1 (by norm_num)) hi,
      testBit_ge64 (h.2.2.1 2 (by norm_num)) hi, testBit_ge64 (h.2.2.1 3 (by norm_num)) hi,
      testBit_ge64 (h.2.2.1 4 (by norm_num)) hi, testBit_ge64 (h.2.2.1 5 (by norm_num)) hi]

theorem Wf.colors_disjoint {P : Position} (h : Wf P) (i : Nat) :
    ¬((P.byColor 0).testBit i = true ∧ (P.byColor 1).testBit i = true) := by
  rcases lt_or_ge i 64 with hi | hi
  · exact h.2.2.2.1 i hi
  · rw [testBit_ge64 (h.2.1 0 (by norm_num)) hi]
    simp

theorem Wf.pieces_disjoint {P : Position} (h : Wf P) {p q : Nat} (hp : p < 6) (hq : q < 6)
    (hne : p ≠ q) (i : Nat) :
    ¬((P.byPiece p).testBit i = true ∧ (P.byPiece q).testBit i = true) := by
  rcases lt_or_ge i 64 with hi | hi
  · exact h.2.2.2.2.1 i hi p hp q hq hne
  · rw [testBit_ge64 (h.2.2.1 p hp) hi]
    simp

/-! Pointwise descriptions of `Position.set` / `Position.clear`. -/

theorem testBit_set_byColor (Z : Zobrist) (P : Position) (c p s x i : Nat) :
    ((Position.set Z P c p s).byColor x).testBit i =
      ((P.byColor x).testBit i || (decide (x = c) && decide (s = i))) := by
  rw [Position.set_byColor]
  by_cases hx : x = c <;> simp [hx, testBit_bbSet]

theorem testBit_set_byPiece (Z : Zobrist) (P : Position) (c p s x i : Nat) :
    ((Position.set Z P c p s).byPiece x).testBit i =
      ((P.byPiece x).testBit i || (decide (x = p) && decide (s = i))) := by
  rw [Position.set_byPiece]
  by_cases hx : x = p <;> simp [hx, testBit_bbSet]

theorem testBit_clear_byColor (Z : Zobrist) (P : Position) {c p s : Nat} (x i : Nat)
    (hs : s < 64) (hbx : P.byColor x < 2 ^ 64) :
    ((Position.clear Z P c p s).byColor x).testBit i =
      ((P.byColor x).testBit i && !(decide (x = c) && decide (s = i))) := by
  rw [Position.clear_byColor]
  by_cases hx : x = c
  · subst hx
    rw [if_pos rfl, testBit_bbClear _ _ _ hs]
    rcases lt_or_ge i 64 with hi | hi
    · simp [hi]
    · simp [testBit_ge64 hbx hi]
  · simp [hx]

theorem testBit_clear_byPiece (Z : Zobrist) (P : Position) {c p s : Nat} (x i : Nat)
    (hs : s < 64) (hbx : P.byPiece x < 2 ^ 64) :
    ((Position.clear Z P c p s).byPiece x).testBit i =
      ((P.byPiece x).testBit i && !(decide (x = p) && decide (s = i))) := by
  rw [Position.clear_byPiece]
  by_cases hx : x = p
  · subst hx
    rw [if_pos rfl, testBit_bbClear _ _ _ hs]
    rcases lt_or_ge i 64 with hi | hi
    · simp [hi]
    · simp [testBit_ge64 hbx hi]
  · simp [hx]

theorem bool_eq_of_iff {a b : Bool} (h : a = true ↔ b = true) : a = b := by
  cases a <;> cases b <;> simp_all

theorem Wf.set {Z : Zobrist} {P : Position} {c p s : Nat} (h : Wf P) (hc : c < 2) (hp : p < 6)
    (hs : s < 64) (hocc : P.occupied.testBit s = false) : Wf (Position.set Z P c p s) := by
  obtain ⟨ht, hbc, hbp, hcd, hpd, hu⟩ := h
  have hcb : colorBit P s = false := by rw [← occupied_testBit]; exact hocc
  have hpb : pieceBit P s = false := by rw [← hu s hs]; exact hcb
  have hc0 : (P.byColor 0).testBit s = false := by simp [colorBit] at hcb; exact hcb.1
  have hc1 : (P.byColor 1).testBit s = false := by simp [colorBit] at hcb; exact hcb.2
  have hpall : ∀ q, q < 6 → (P.byPiece q).testBit s = false := by
    intro q hq
    simp [pieceBit] at hpb
    interval_cases q <;> tauto
  refine ⟨ht, ?_, ?_, ?_, ?_, ?_⟩
  · intro c' hc'
    rw [Position.set_byColor]
    split
    · exact bbSet_lt (hbc c' hc') hs
    · exact hbc c' hc'
  · intro p' hp'
    rw [Position.set_byPiece]
    split
    · exact bbSet_lt (hbp p' hp') hs
    · exact hbp p' hp'
  · intro i hi hcon
    rw [testBit_set_byColor, testBit_set_byColor] at hcon
    by_cases his : s = i
    · subst his
      simp [hc0, hc1] at hcon
      omega
    · simp [his] at hcon
      exact hcd i hi hcon
  · intro i hi p' hp' q' hq' hne hcon
    rw [testBit_set_byPiece, testBit_set_byPiece] at hcon
    by_cases his : s = i
    · subst his
      simp [hpall p' hp', hpall q' hq'] at hcon
      omega
    · simp [his] at hcon
      exact hpd i hi p' hp' q' hq' hne hcon
  · intro i hi
    by_cases his : s = i
    · subst his
      rcases (by omega : c = 0 ∨ c = 1) with rfl | rfl <;>
        rcases (by omega : p = 0 ∨ p = 1 ∨ p = 2 ∨ p = 3 ∨ p = 4 ∨ p = 5) with
          rfl | rfl | rfl | rfl | rfl | rfl <;>
        simp [colorBit, pieceBit, testBit_set_byColor, testBit_set_byPiece, hc0, hc1,
          hpall 0 (by norm_num), hpall 1 (by norm_num), hpall 2 (by norm_num),
          hpall 3 (by norm_num), hpall 4 (by norm_num), hpall 5 (by norm_num)]
    · have hui := hu i hi
      simp only [colorBit, pieceBit] at hui
      simp only [colorBit, pieceBit, testBit_set_byColor, testBit_set_byPiece, his,
        decide_False, Bool.and_false, Bool.or_false]
      exact hui

theorem Wf.clear {Z : Zobrist} {P : Position} {c p s : Nat} (h : Wf P) (hc : c < 2) (hp : p < 6)
    (hs : s < 64) (hcol : (P.byColor c).testBit s = true)
    (hpc : (P.byPiece p).testBit s = true) : Wf (Position.clear Z P c p s) := by
  obtain ⟨ht, hbc, hbp, hcd, hpd, hu⟩ := h
  have hothercol : ∀ x, x < 2 → x ≠ c → (P.byColor x).testBit s = false := by
    intro x hx hxc
    cases hb : (P.byColor x).testBit s
    · rfl
    · exfalso
      have hcd' := hcd s hs
      interval_cases x <;> interval_cases c <;> simp_all
  have hotherpc : ∀ q, q < 6 → q ≠ p → (P.byPiece q).testBit s = false := by
    intro q hq hqp
    cases hb : (P.byPiece q).testBit s
    · rfl
    · exact absurd ⟨hpc, hb⟩ (hpd s hs p hp q hq (fun e => hqp e.symm))
  refine ⟨ht, ?_, ?_, ?_, ?_, ?_⟩
  · intro c' hc'
    rw [Position.clear_byColor]
    split
    · exact lt_of_le_of_lt bbClear_le (hbc c' hc')
    · exact hbc c' hc'
  · intro p' hp'
    rw [Position.clear_byPiece]
    split
    · exact lt_of_le_of_lt bbClear_le (hbp p' hp')
    · exact hbp p' hp'
  · intro i hi hcon
    rw [testBit_clear_byColor Z P 0 i hs (hbc 0 (by norm_num)),
        testBit_clear_byColor Z P 1 i hs (hbc 1 (by norm_num))] at hcon
    simp only [Bool.and_eq_true] at hcon
    exact hcd i hi ⟨hcon.1.1, hcon.2.1⟩
  · intro i hi p' hp' q' hq' hne hcon
    rw [testBit_clear_byPiece Z P p' i hs (hbp p' hp'),
        testBit_clear_byPiece Z P q' i hs (hbp q' hq')] at hcon
    simp only [Bool.and_eq_true] at hcon
    exact hpd i hi p' hp' q' hq' hne ⟨hcon.1.1, hcon.2.1⟩
  · intro i hi
    by_cases his : s = i
    · subst his
      rcases (by omega : c = 0 ∨ c = 1) with rfl | rfl <;>
        rcases (by omega : p = 0 ∨ p = 1 ∨ p = 2 ∨ p = 3 ∨ p = 4 ∨ p = 5) with
          rfl | rfl | rfl | rfl | rfl | rfl <;>
        simp [colorBit, pieceBit,
          testBit_clear_byColor Z P 0 s hs (hbc 0 (by norm_num)),
          testBit_clear_byColor Z P 1 s hs (hbc 1 (by norm_num)),
          testBit_clear_byPiece Z P 0 s hs (hbp 0 (by norm_num)),
          testBit_clear_byPiece Z P 1 s hs (hbp 1 (by norm_num)),
          testBit_clear_byPiece Z P 2 s hs (hbp 2 (by norm_num)),
          testBit_clear_byPiece Z P 3 s hs (hbp 3 (by norm_num)),
          testBit_clear_byPiece Z P 4 s hs (hbp 4 (by norm_num)),
          testBit_clear_byPiece Z P 5 s hs (hbp 5 (by norm_num)),
          hcol, hpc, hothercol, hotherpc]
    · have hui := hu i hi
      simp only [colorBit, pieceBit] at hui
      simp only [colorBit, pieceBit,
        testBit_clear_byColor Z P 0 i hs (hbc 0 (by norm_num)),
        testBit_clear_byColor Z P 1 i hs (hbc 1 (by norm_num)),
        testBit_clear_byPiece Z P 0 i hs (hbp 0 (by norm_num)),
        testBit_clear_byPiece Z P 1 i hs (hbp 1 (by norm_num)),
        testBit_clear_byPiece Z P 2 i hs (hbp 2 (by norm_num)),
        testBit_clear_byPiece Z P 3 i hs (hbp 3 (by norm_num)),
        testBit_clear_byPiece Z P 4 i hs (hbp 4 (by norm_num)),
        testBit_clear_byPiece Z P 5 i hs (hbp 5 (by norm_num)),
        his, decide_False, Bool.and_false, Bool.not_false, Bool.and_true]
      exact hui

/-! ### Occupant lookup specifications -/

theorem color_on_lt_two (P : Position) (sq : Nat) : Position.color_on P sq < 2 := by
  unfold Position.color_on
  split <;> decide

theorem color_on_bit {P : Position} (h : Wf P) {sq : Nat}
    (hocc : P.occupied.testBit sq = true) :
    (P.byColor (Position.color_on P sq)).testBit sq = true := by
  have hcb : colorBit P sq = true := by rw [← occupied_testBit]; exact hocc
  simp only [colorBit, Bool.or_eq_true] at hcb
  simp only [Position.color_on, bbTest, WHITE, BLACK]
  by_cases hw : (P.byColor 0).testBit sq = true
  · simp [hw]
  · rcases hcb with h1 | h1
    · exact absurd h1 hw
    · simp [hw, h1]

theorem piece_on_lt_six {P : Position} {sq : Nat} (h : pieceBit P sq = true) :
    Position.piece_on P sq < 6 := by
  simp only [pieceBit, Bool.or_eq_true] at h
  simp only [Position.piece_on, bbTest, PAWN, KNIGHT, BISHOP, ROOK, QUEEN, KING, NB_PIECE]
  split_ifs <;> try norm_num
  tauto

theorem piece_on_bit {P : Position} {sq : Nat} (h : pieceBit P sq = true) :
    (P.byPiece (Position.piece_on P sq)).testBit sq = true := by
  simp only [pieceBit, Bool.or_eq_true] at h
  simp only [Position.piece_on, bbTest, PAWN, KNIGHT, BISHOP, ROOK, QUEEN, KING, NB_PIECE]
  split_ifs <;> try assumption
  exfalso
  tauto

theorem piece_on_eq {P : Position} {sq p : Nat} (h : Wf P) (hp : p < 6)
    (hbit : (P.byPiece p).testBit sq = true) : Position.piece_on P sq = p := by
  have hpb : pieceBit P sq = true := by
    simp only [pieceBit, Bool.or_eq_true]
    interval_cases p <;> tauto
  have h1 := piece_on_bit hpb
  have h2 := piece_on_lt_six hpb
  by_contra hne
  exact (Wf.pieces_disjoint h h2 hp hne sq) ⟨h1, hbit⟩

theorem occ_of_colorBit {P : Position} {c sq : Nat} (hc : c < 2)
    (hb : (P.byColor c).testBit sq = true) : P.occupied.testBit sq = true := by
  rw [occupied_testBit]
  simp only [colorBit, Bool.or_eq_true]
  interval_cases c <;> tauto

theorem occ_of_pieceBit {P : Position} (h : Wf P) {p sq : Nat} (hp : p < 6)
    (hb : (P.byPiece p).testBit sq = true) : P.occupied.testBit sq = true := by
  rw [occupied_testBit, Wf.colorBit_eq_pieceBit h]
  simp only [pieceBit, Bool.or_eq_true]
  interval_cases p <;> tauto

theorem pieceBit_of_occ {P : Position} (h : Wf P) {sq : Nat}
    (hocc : P.occupied.testBit sq = true) : pieceBit P sq = true := by
  rw [occupied_testBit] at hocc
  rw [← Wf.colorBit_eq_pieceBit h]
  exact hocc

/-! ### Occupancy after one `set` / `clear` -/

theorem occupied_set_eq (Z : Zobrist) (P : Position) {c : Nat} (p s : Nat) (hc : c < 2) :
    (Position.set Z P c p s).occupied = bbSet P.occupied s := by
  rcases (by omega : c = 0 ∨ c = 1) with rfl | rfl <;>
  · apply Nat.eq_of_testBit_eq
    intro i
    rw [occupied_testBit, testBit_bbSet, occupied_testBit]
    simp only [colorBit, testBit_set_byColor]
    apply bool_eq_of_iff
    simp only [Bool.or_eq_true, Bool.and_eq_true, decide_eq_true_eq]
    constructor
    · intro hx
      tauto
    · intro hx
      tauto

theorem occupied_set_testBit (Z : Zobrist) (P : Position) {c : Nat} (p s : Nat) (hc : c < 2)
    (i : Nat) :
    (Position.set Z P c p s).occupied.testBit i = (P.occupied.testBit i || decide (s = i)) := by
  rw [occupied_set_eq Z P p s hc, testBit_bbSet]

theorem occupied_clear_testBit (Z : Zobrist) {P : Position} (h : Wf P) {c : Nat} (p : Nat)
    {s : Nat} (hc : c < 2) (hs : s < 64) (hcol : (P.byColor c).testBit s = true) (i : Nat) :
    (Position.clear Z P c p s).occupied.testBit i = (P.occupied.testBit i && !decide (s = i)) := by
  have hoth : ∀ x, x < 2 → x ≠ c → (P.byColor x).testBit s = false := by
    intro x hx hxc
    cases hb : (P.byColor x).testBit s
    · rfl
    · exfalso
      have hcd' := h.2.2.2.1 s hs
      interval_cases x <;> interval_cases c <;> simp_all
  rw [occupied_testBit, occupied_testBit]
  simp only [colorBit,
    testBit_clear_byColor Z P 0 i hs (h.2.1 0 (by norm_num)),
    testBit_clear_byColor Z P 1 i hs (h.2.1 1 (by norm_num))]
  by_cases his : s = i
  · subst his
    rcases (by omega : c = 0 ∨ c = 1) with rfl | rfl <;>
      simp [hoth 0, hoth 1, hcol]
  · simp [his]

/-! ### Well-formed position descriptions -/

/-- A clean placement trace: the same square arithmetic as `placeChar`, with
every placement landing on a fresh in-range square of the accumulated
occupancy `occ`.  This is the well-formedness condition on the placement
field of a position description. -/
def validTrace (occ : Nat) (sq : Int) : List Char → Bool
  | [] => true
  | c :: cs =>
    if 48 ≤ c.toNat ∧ c.toNat ≤ 57 then validTrace occ (sq + ((c.toNat : Int) - 48)) cs
    else if c = '/' then validTrace occ (sq - 16) cs
    else
      match pieceOfChar c with
      | some cp => decide (cp.1 < 2) && decide (cp.2 < 6) &&
                   decide (0 ≤ sq) && decide (sq < 64) && !(occ.testBit sq.toNat) &&
                   validTrace (bbSet occ sq.toNat) (sq + 1) cs
      | none => validTrace occ sq cs

/-- A well-formed position description: its placement field has a clean
trace starting from the empty board at `A8`. -/
def wellFormedFEN (fen : String) : Bool :=
  validTrace 0 (A8 : Nat) ((fenTokens fen).getD 0 [])

theorem wf_fold_place (Z : Zobrist) : ∀ (cs : List Char) (sq : Int) (P : Position),
    Wf P → validTrace P.occupied sq cs = true →
    Wf (cs.foldl (placeChar Z) (sq, P)).2 := by
  intro cs
  induction cs with
  | nil => intro sq P h _; simpa using h
  | cons c cs ih =>
    intro sq P h hvt
    rw [List.foldl_cons]
    unfold validTrace at hvt
    unfold placeChar
    by_cases hd : 48 ≤ c.toNat ∧ c.toNat ≤ 57
    · rw [if_pos hd]
      rw [if_pos hd] at hvt
      exact ih _ _ h hvt
    · rw [if_neg hd]
      rw [if_neg hd] at hvt
      by_cases hsl : c = '/'
      · rw [if_pos hsl]
        rw [if_pos hsl] at hvt
        exact ih _ _ h hvt
      · rw [if_neg hsl]
        rw [if_neg hsl] at hvt
        rcases hpe : pieceOfChar c with _ | cp
        · rw [hpe] at hvt
          exact ih _ _ h hvt
        · rw [hpe] at hvt
          simp only [Bool.and_eq_true, decide_eq_true_eq, Bool.not_eq_true'] at hvt
          obtain ⟨⟨⟨⟨⟨hc2, hp6⟩, h0⟩, h1⟩, hfresh⟩, hrest⟩ := hvt
          have hsq64 : sq.toNat < 64 := by omega
          have hWf2 : Wf (Position.set Z P cp.1 cp.2 sq.toNat) :=
            Wf.set h hc2 hp6 hsq64 hfresh
          apply ih _ _ hWf2
          rw [occupied_set_eq Z P cp.2 sq.toNat hc2]
          exact hrest

theorem wf_transport {P Q : Position} (hbc : Q.byColor = P.byColor)
    (hbp : Q.byPiece = P.byPiece) (ht : Q.turn = P.turn) (h : Wf P) : Wf Q := by
  unfold Wf colorBit pieceBit at h ⊢
  rw [hbc, hbp, ht]
  exact h

theorem castle_fold_boards : ∀ (cs : List Char) (st : Int × Position),
    ((cs.foldl castleChar st).2).byColor = st.2.byColor ∧
    ((cs.foldl castleChar st).2).byPiece = st.2.byPiece ∧
    ((cs.foldl castleChar st).2).turn = st.2.turn := by
  intro cs
  induction cs with
  | nil => intro st; exact ⟨rfl, rfl, rfl⟩
  | cons c cs ih =>
    intro st
    rw [List.foldl_cons]
    exact ih _

theorem wf_cleared : Wf Position.cleared := by
  refine ⟨by decide, ?_, ?_, ?_, ?_, ?_⟩ <;>
    simp [Position.cleared, colorBit, pieceBit]

theorem set_pos_wf (Z : Zobrist) (fen : String) (h : wellFormedFEN fen = true) :
    Wf (Position.set_pos Z fen) := by
  have hA : Wf (placementStage Z fen).2 := by
    apply wf_fold_place Z _ _ _ wf_cleared
    have hocc : Position.cleared.occupied = 0 := rfl
    rw [hocc]
    exact h
  have hB : Wf (turnStage Z fen (placementStage Z fen).2) := by
    unfold turnStage
    split
    · exact ⟨(by decide : WHITE < 2), hA.2.1, hA.2.2.1, hA.2.2.2.1, hA.2.2.2.2.1, hA.2.2.2.2.2⟩
    · exact ⟨(by decide : BLACK < 2), hA.2.1, hA.2.2.1, hA.2.2.2.1, hA.2.2.2.2.1, hA.2.2.2.2.2⟩
  have hC : Wf ((castleStage fen ((placementStage Z fen).1,
      turnStage Z fen (placementStage Z fen).2)).2) := by
    obtain ⟨e1, e2, e3⟩ := castle_fold_boards ((fenTokens fen).getD 2 [])
      ((placementStage Z fen).1, turnStage Z fen (placementStage Z fen).2)
    exact wf_transport e1 e2 e3 hB
  exact hC

/-! ### Pseudo-legality of a move for a position

The conditions a legal move satisfies that the board update relies on: both
squares on the board and distinct, a piece of the side to move on the
origin; for an en-passant capture, an enemy pawn on the square behind the
target; for a promotion, a valid promotion kind; for the KxR castling
encoding, free target squares for king and rook. -/
def moveOk (P : Position) (m : Move) : Bool :=
  decide (0 ≤ m.fsq) && decide (m.fsq < 64) && decide (0 ≤ m.tsq) && decide (m.tsq < 64) &&
  decide (m.fsq ≠ m.tsq) && bbTest (P.byColor P.turn) m.fsq.toNat &&
  (if Position.piece_on P m.fsq.toNat = PAWN then
     if m.tsq = P.epSquare then
       decide (0 ≤ m.tsq - push_inc P.turn) && decide (m.tsq - push_inc P.turn < 64) &&
       decide (m.tsq - push_inc P.turn ≠ m.fsq) &&
       bbTest (P.byColor (opp_color P.turn)) (m.tsq - push_inc P.turn).toNat &&
       bbTest (P.byPiece PAWN) (m.tsq - push_inc P.turn).toNat
     else if rank_of m.tsq.toNat = 7 ∨ rank_of m.tsq.toNat = 0 then decide (m.prom < 6)
     else true
   else
     if Position.piece_on P m.fsq.toNat = KING ∧ bbTest (P.byColor P.turn) m.tsq.toNat = true then
       !((bbClear (bbClear P.occupied m.tsq.toNat) m.fsq.toNat).testBit
          (if m.tsq > m.fsq then square_from (rank_of m.fsq.toNat) 6
           else square_from (rank_of m.fsq.toNat) 2)) &&
       !((bbClear (bbClear P.occupied m.tsq.toNat) m.fsq.toNat).testBit
          (if m.tsq > m.fsq then square_from (rank_of m.fsq.toNat) 5
           else square_from (rank_of m.fsq.toNat) 3)) &&
       decide ((if m.tsq > m.fsq then square_from (rank_of m.fsq.toNat) 6
                else square_from (rank_of m.fsq.toNat) 2) ≠
               (if m.tsq > m.fsq then square_from (rank_of m.fsq.toNat) 5
                else square_from (rank_of m.fsq.toNat) 3))
     else true)

theorem opp_color_lt {c : Nat} (h : c < 2) : opp_color c < 2 := by
  unfold opp_color
  interval_cases c <;> decide

theorem Wf.occupied_lt {P : Position} (h : Wf P) : P.occupied < 2 ^ 64 :=
  Nat.or_lt_two_pow (h.2.1 0 (by norm_num)) (h.2.1 1 (by norm_num))

theorem captureStage_facts (Z : Zobrist) {P : Position} (h : Wf P) (m : Move) :
    Wf (Position.captureStage Z P m) ∧
    (∀ i, (Position.captureStage Z P m).occupied.testBit i =
      (P.occupied.testBit i && !decide (m.tsq.toNat = i))) ∧
    (∀ x i, x < 2 → i ≠ m.tsq.toNat →
      ((Position.captureStage Z P m).byColor x).testBit i = (P.byColor x).testBit i) ∧
    (∀ x i, x < 6 → i ≠ m.tsq.toNat →
      ((Position.captureStage Z P m).byPiece x).testBit i = (P.byPiece x).testBit i) ∧
    (Position.captureStage Z P m).turn = P.turn := by
  cases hcap : P.occupied.testBit m.tsq.toNat with
  | false =>
    have he : Position.captureStage Z P m = P := by
      unfold Position.captureStage
      simp [bbTest, hcap]
    rw [he]
    refine ⟨h, ?_, fun x i _ _ => rfl, fun x i _ _ => rfl, rfl⟩
    intro i
    by_cases his : m.tsq.toNat = i
    · subst his
      simp [hcap]
    · simp [his]
  | true =>
    have hts64 : m.tsq.toNat < 64 := bit_lt_64 h.occupied_lt hcap
    have hpb : pieceBit P m.tsq.toNat = true := pieceBit_of_occ h hcap
    have h6 := piece_on_lt_six hpb
    have hne6 : Position.piece_on P m.tsq.toNat ≠ NB_PIECE := by unfold NB_PIECE; omega
    have hcbit := piece_on_bit hpb
    have hc2 := color_on_lt_two P m.tsq.toNat
    have hcolbit := color_on_bit h hcap
    have h0 : Wf { P with rule50 := (0 : Int) } := h
    have hW2 : Wf (Position.clear Z { P with rule50 := (0 : Int) }
        (Position.color_on P m.tsq.toNat) (Position.piece_on P m.tsq.toNat) m.tsq.toNat) :=
      Wf.clear h0 hc2 h6 hts64 hcolbit hcbit
    have hred : (Position.captureStage Z P m).byColor =
        (Position.clear Z { P with rule50 := (0 : Int) } (Position.color_on P m.tsq.toNat)
          (Position.piece_on P m.tsq.toNat) m.tsq.toNat).byColor ∧
        (Position.captureStage Z P m).byPiece =
        (Position.clear Z { P with rule50 := (0 : Int) } (Position.color_on P m.tsq.toNat)
          (Position.piece_on P m.tsq.toNat) m.tsq.toNat).byPiece ∧
        (Position.captureStage Z P m).turn = P.turn := by
      by_cases hr : Position.piece_on P m.tsq.toNat = ROOK <;>
        simp [Position.captureStage, bbTest, hcap, hne6, hr,
          (show ROOK ≠ NB_PIECE from by decide)] <;>
        first
        | rfl
        | exact ⟨rfl, rfl⟩
        | exact ⟨rfl, rfl, rfl⟩
    refine ⟨wf_transport hred.1 hred.2.1 (by rw [hred.2.2]; rfl) hW2, ?_, ?_, ?_, hred.2.2⟩
    · intro i
      have he2 : (Position.captureStage Z P m).occupied =
          (Position.clear Z { P with rule50 := (0 : Int) } (Position.color_on P m.tsq.toNat)
            (Position.piece_on P m.tsq.toNat) m.tsq.toNat).occupied := by
        unfold Position.occupied
        rw [hred.1]
      rw [he2, occupied_clear_testBit Z h0 _ hc2 hts64 hcolbit i]
      rfl
    · intro x i hx hi
      rw [congrFun hred.1 x,
        testBit_clear_byColor Z { P with rule50 := (0 : Int) } x i hts64 (h.2.1 x hx)]
      simp only [Bool.and_eq_true, Bool.not_eq_true', Bool.and_eq_false_iff,
        decide_eq_false_iff_not, decide_eq_true_eq]
      refine bool_eq_of_iff ?_
      simp only [Bool.and_eq_true, Bool.not_eq_true', Bool.and_eq_false_iff,
        decide_eq_false_iff_not, decide_eq_true_eq]
      constructor
      · intro hq
        exact hq.1
      · intro hq
        exact ⟨hq, Or.inr (fun e => hi e.symm)⟩
    · intro x i hx hi
      rw [congrFun hred.2.1 x,
        testBit_clear_byPiece Z { P with rule50 := (0 : Int) } x i hts64 (h.2.2.1 x hx)]
      refine bool_eq_of_iff ?_
      simp only [Bool.and_eq_true, Bool.not_eq_true', Bool.and_eq_false_iff,
        decide_eq_false_iff_not, decide_eq_true_eq]
      constructor
      · intro hq
        exact hq.1
      · intro hq
        exact ⟨hq, Or.inr (fun e => hi e.symm)⟩

@[simp] theorem occupied_rule50 (P : Position) (x : Int) :
    Position.occupied { P with rule50 := x } = P.occupied := rfl

theorem moveStage_facts (Z : Zobrist) {P Q1 : Position} {m : Move}
    (W1 : Wf Q1) (HT1 : Q1.turn = P.turn)
    (HO1 : ∀ i, Q1.occupied.testBit i = (P.occupied.testBit i && !decide (m.tsq.toNat = i)))
    (HC1 : ∀ x i, x < 2 → i ≠ m.tsq.toNat → (Q1.byColor x).testBit i = (P.byColor x).testBit i)
    (HP1 : ∀ x i, x < 6 → i ≠ m.tsq.toNat → (Q1.byPiece x).testBit i = (P.byPiece x).testBit i)
    (hus : P.turn < 2) {piece : Nat} (hp6 : piece < 6)
    (hf64 : m.fsq.toNat < 64) (ht64 : m.tsq.toNat < 64) (hne : m.fsq.toNat ≠ m.tsq.toNat)
    (hbcf : (P.byColor P.turn).testBit m.fsq.toNat = true)
    (hbpf : (P.byPiece piece).testBit m.fsq.toNat = true) :
    Wf (Position.set Z (Position.clear Z Q1 P.turn piece m.fsq.toNat) P.turn piece m.tsq.toNat) ∧
    (∀ i, (Position.set Z (Position.clear Z Q1 P.turn piece m.fsq.toNat) P.turn piece m.tsq.toNat).occupied.testBit i =
      (((P.occupied.testBit i && !decide (m.tsq.toNat = i)) && !decide (m.fsq.toNat = i)) ||
        decide (m.tsq.toNat = i))) ∧
    (∀ x i, x < 2 → i ≠ m.tsq.toNat → i ≠ m.fsq.toNat →
      ((Position.set Z (Position.clear Z Q1 P.turn piece m.fsq.toNat) P.turn piece m.tsq.toNat).byColor x).testBit i = (P.byColor x).testBit i) ∧
    (∀ x i, x < 6 → i ≠ m.tsq.toNat → i ≠ m.fsq.toNat →
      ((Position.set Z (Position.clear Z Q1 P.turn piece m.fsq.toNat) P.turn piece m.tsq.toNat).byPiece x).testBit i = (P.byPiece x).testBit i) ∧
    ((Position.set Z (Position.clear Z Q1 P.turn piece m.fsq.toNat) P.turn piece m.tsq.toNat).byColor P.turn).testBit m.tsq.toNat = true ∧
    ((Position.set Z (Position.clear Z Q1 P.turn piece m.fsq.toNat) P.turn piece m.tsq.toNat).byPiece piece).testBit m.tsq.toNat = true ∧
    (Position.set Z (Position.clear Z Q1 P.turn piece m.fsq.toNat) P.turn piece m.tsq.toNat).turn = P.turn := by
  have hbcf' : (Q1.byColor P.turn).testBit m.fsq.toNat = true := by
    rw [HC1 P.turn m.fsq.toNat hus hne]
    exact hbcf
  have hbpf' : (Q1.byPiece piece).testBit m.fsq.toNat = true := by
    rw [HP1 piece m.fsq.toNat hp6 hne]
    exact hbpf
  have W2 : Wf (Position.clear Z Q1 P.turn piece m.fsq.toNat) :=
    Wf.clear W1 hus hp6 hf64 hbcf' hbpf'
  have HO2 : ∀ i, (Position.clear Z Q1 P.turn piece m.fsq.toNat).occupied.testBit i =
      (Q1.occupied.testBit i && !decide (m.fsq.toNat = i)) :=
    occupied_clear_testBit Z W1 piece hus hf64 hbcf'
  have hunocc : (Position.clear Z Q1 P.turn piece m.fsq.toNat).occupied.testBit m.tsq.toNat = false := by
    rw [HO2, HO1]
    simp
  have W3 : Wf (Position.set Z (Position.clear Z Q1 P.turn piece m.fsq.toNat) P.turn piece m.tsq.toNat) :=
    Wf.set W2 hus hp6 ht64 hunocc
  have HO3 := occupied_set_testBit Z (Position.clear Z Q1 P.turn piece m.fsq.toNat) piece m.tsq.toNat hus
  refine ⟨W3, ?_, ?_, ?_, ?_, ?_, by rw [Position.set_turn, Position.clear_turn, HT1]⟩
  · intro i
    rw [HO3 i, HO2 i, HO1 i]
  · intro x i hx hit hif
    have hit' : ¬(m.tsq.toNat = i) := fun e => hit e.symm
    have hif' : ¬(m.fsq.toNat = i) := fun e => hif e.symm
    rw [testBit_set_byColor,
      testBit_clear_byColor Z Q1 x i hf64 (W1.2.1 x hx), HC1 x i hx hit]
    simp [hit', hif']
  · intro x i hx hit hif
    have hit' : ¬(m.tsq.toNat = i) := fun e => hit e.symm
    have hif' : ¬(m.fsq.toNat = i) := fun e => hif e.symm
    rw [testBit_set_byPiece,
      testBit_clear_byPiece Z Q1 x i hf64 (W1.2.2.1 x hx), HP1 x i hx hit]
    simp [hit', hif']
  · rw [testBit_set_byColor]
    simp
  · rw [testBit_set_byPiece]
    simp

theorem wf_update_turn_key {P : Position} {t : Nat} {k : Nat} (ht : t < 2) (h : Wf P) :
    Wf { P with turn := t, key := k } :=
  ⟨ht, h.2.1, h.2.2.1, h.2.2.2.1, h.2.2.2.2.1, h.2.2.2.2.2⟩

theorem castle_steps_wf (Z : Zobrist) {Q : Position} {us ts ksq rsq : Nat}
    (W : Wf Q) (hus : us < 2) (hts : ts < 64) (hk64 : ksq < 64) (hr64 : rsq < 64)
    (hbc : (Q.byColor us).testBit ts = true) (hbp : (Q.byPiece KING).testBit ts = true)
    (hk : Q.occupied.testBit ksq = false ∨ ksq = ts)
    (hr : Q.occupied.testBit rsq = false ∨ rsq = ts) (hkr : ksq ≠ rsq) :
    Wf (Position.set Z (Position.set Z (Position.clear Z Q us KING ts) us KING ksq) us ROOK rsq) := by
  have W4 : Wf (Position.clear Z Q us KING ts) := Wf.clear W hus (by decide) hts hbc hbp
  have HO4 := occupied_clear_testBit Z W KING hus hts hbc
  have hkunocc : (Position.clear Z Q us KING ts).occupied.testBit ksq = false := by
    rw [HO4]
    rcases hk with hv | rfl
    · simp [hv]
    · simp
  have W5 : Wf (Position.set Z (Position.clear Z Q us KING ts) us KING ksq) :=
    Wf.set W4 hus (by decide) hk64 hkunocc
  have HO5 := occupied_set_testBit Z (Position.clear Z Q us KING ts) KING ksq hus
  have hrunocc : (Position.set Z (Position.clear Z Q us KING ts) us KING ksq).occupied.testBit rsq = false := by
    rw [HO5, HO4]
    have : ¬(ksq = rsq) := hkr
    rcases hr with hv | rfl
    · simp [hv, this]
    · simp [this]
  exact Wf.set W5 hus (by decide) hr64 hrunocc

theorem Wf.play (Z : Zobrist) {P : Position} {m : Move} (h : Wf P) (hm : moveOk P m = true) :
    Wf (Position.play Z P m) := by
  unfold moveOk at hm
  simp only [Bool.and_eq_true, decide_eq_true_eq, bbTest] at hm
  obtain ⟨⟨⟨⟨⟨⟨hf0, hf1⟩, ht0⟩, ht1⟩, hne⟩, hmine⟩, hrest⟩ := hm
  have hus : P.turn < 2 := h.1
  have hf64 : m.fsq.toNat < 64 := by omega
  have ht64 : m.tsq.toNat < 64 := by omega
  have hnefs : m.fsq.toNat ≠ m.tsq.toNat := by omega
  have hoccf : P.occupied.testBit m.fsq.toNat = true := occ_of_colorBit hus hmine
  have hpbf : pieceBit P m.fsq.toNat = true := pieceBit_of_occ h hoccf
  have hp6 : Position.piece_on P m.fsq.toNat < 6 := piece_on_lt_six hpbf
  have hbpf : (P.byPiece (Position.piece_on P m.fsq.toNat)).testBit m.fsq.toNat = true :=
    piece_on_bit hpbf
  have hp0 : Wf { P with rule50 := P.rule50 + 1 } := h
  obtain ⟨W1, HO1, HC1, HP1, HT1⟩ := captureStage_facts Z hp0 m
  simp only [occupied_rule50] at HO1
  obtain ⟨W3, HO3, HC3, HP3, hbts, hbpts, HT3⟩ :=
    moveStage_facts Z W1 (P := P) HT1 HO1 HC1 HP1 hus hp6 hf64 ht64 hnefs hmine hbpf
  simp only [Position.play, Position.piece_on_rule50]
  apply wf_update_turn_key (opp_color_lt hus)
  split
  · next hPw =>
    rw [if_pos hPw] at hrest
    simp only [Position.pawnStage]
    split
    · next hep =>
      rw [if_pos hep] at hrest
      simp only [Bool.and_eq_true, decide_eq_true_eq] at hrest
      obtain ⟨⟨⟨⟨hcs0, hcs1⟩, hcsf⟩, hcsc⟩, hcsp⟩ := hrest
      have hcs64 : (m.tsq - push_inc P.turn).toNat < 64 := by omega
      have hcsne_f : (m.tsq - push_inc P.turn).toNat ≠ m.fsq.toNat := by omega
      have hpush : push_inc P.turn = 8 ∨ push_inc P.turn = -8 := by
        unfold push_inc UP DOWN
        split <;> simp
      have hcsneq : m.tsq - push_inc P.turn ≠ m.tsq := by
        rcases hpush with e | e <;> rw [e] <;> omega
      have hcsne_t : (m.tsq - push_inc P.turn).toNat ≠ m.tsq.toNat := by omega
      have hbc_cs : (((Position.set Z (Position.clear Z (Position.captureStage Z { P with rule50 := P.rule50 + 1 } m) P.turn (Position.piece_on P m.fsq.toNat) m.fsq.toNat) P.turn (Position.piece_on P m.fsq.toNat) m.tsq.toNat)).byColor (opp_color P.turn)).testBit (m.tsq - push_inc P.turn).toNat = true := by
        rw [HC3 _ _ (opp_color_lt hus) hcsne_t hcsne_f]
        exact hcsc
      have hbp_cs : (((Position.set Z (Position.clear Z (Position.captureStage Z { P with rule50 := P.rule50 + 1 } m) P.turn (Position.piece_on P m.fsq.toNat) m.fsq.toNat) P.turn (Position.piece_on P m.fsq.toNat) m.tsq.toNat)).byPiece (Position.piece_on P m.fsq.toNat)).testBit (m.tsq - push_inc P.turn).toNat = true := by
        rw [HP3 _ _ hp6 hcsne_t hcsne_f, hPw]
        exact hcsp
      exact Wf.clear W3 (opp_color_lt hus) hp6 hcs64 hbc_cs hbp_cs
    · next hep =>
      split
      · next hpr =>
        rw [if_neg hep, if_pos hpr] at hrest
        simp only [decide_eq_true_eq] at hrest
        have W4 := @Wf.clear Z _ _ _ _ W3 hus hp6 ht64 hbts hbpts
        have HO4 := occupied_clear_testBit Z W3 (Position.piece_on P m.fsq.toNat) hus ht64 hbts
        have hunocc4 : ((Position.clear Z (Position.set Z (Position.clear Z (Position.captureStage Z { P with rule50 := P.rule50 + 1 } m) P.turn (Position.piece_on P m.fsq.toNat) m.fsq.toNat) P.turn (Position.piece_on P m.fsq.toNat) m.tsq.toNat) P.turn (Position.piece_on P m.fsq.toNat) m.tsq.toNat)).occupied.testBit m.tsq.toNat = false := by
          rw [HO4]
          simp
        exact Wf.set W4 hus hrest ht64 hunocc4
      · next hpr =>
        exact W3
  · next hPw =>
    rw [if_neg hPw] at hrest
    simp only [Position.nonPawnStage]
    split
    · next hrk =>
      exact W3
    · next hrk =>
      split
      · next hkg =>
        split
        · next hfr =>
          have hfr' : (P.byColor P.turn).testBit m.tsq.toNat = true := hfr
          rw [if_pos ⟨hkg, hfr'⟩] at hrest
          simp only [Bool.and_eq_true, Bool.not_eq_true', decide_eq_true_eq] at hrest
          obtain ⟨⟨hkF, hrF⟩, hkrne⟩ := hrest
          have hksq64 : (if m.tsq > m.fsq then square_from (rank_of m.fsq.toNat) 6
              else square_from (rank_of m.fsq.toNat) 2) < 64 := by
            unfold square_from rank_of
            split <;> omega
          have hrsq64 : (if m.tsq > m.fsq then square_from (rank_of m.fsq.toNat) 5
              else square_from (rank_of m.fsq.toNat) 3) < 64 := by
            unfold square_from rank_of
            split <;> omega
          rw [testBit_bbClear _ _ _ hf64, testBit_bbClear _ _ _ ht64] at hkF
          rw [testBit_bbClear _ _ _ hf64, testBit_bbClear _ _ _ ht64] at hrF
          simp only [hksq64, decide_True, Bool.and_true, Bool.true_and,
            Bool.and_eq_false_iff] at hkF
          simp only [hrsq64, decide_True, Bool.and_true, Bool.true_and,
            Bool.and_eq_false_iff] at hrF
          have hbptsK : ((Position.set Z (Position.clear Z (Position.captureStage Z { P with rule50 := P.rule50 + 1 } m) P.turn (Position.piece_on P m.fsq.toNat) m.fsq.toNat) P.turn (Position.piece_on P m.fsq.toNat) m.tsq.toNat).byPiece KING).testBit m.tsq.toNat = true := by
            rw [← hkg]
            exact hbpts
          have hk : ((Position.set Z (Position.clear Z (Position.captureStage Z { P with rule50 := P.rule50 + 1 } m) P.turn (Position.piece_on P m.fsq.toNat) m.fsq.toNat) P.turn (Position.piece_on P m.fsq.toNat) m.tsq.toNat)).occupied.testBit (if m.tsq > m.fsq then square_from (rank_of m.fsq.toNat) 6 else square_from (rank_of m.fsq.toNat) 2) = false ∨ (if m.tsq > m.fsq then square_from (rank_of m.fsq.toNat) 6 else square_from (rank_of m.fsq.toNat) 2) = m.tsq.toNat := by
            by_cases he : (if m.tsq > m.fsq then square_from (rank_of m.fsq.toNat) 6 else square_from (rank_of m.fsq.toNat) 2) = m.tsq.toNat
            · exact Or.inr he
            · left
              rw [HO3]
              have hne1 : ¬(m.tsq.toNat = (if m.tsq > m.fsq then square_from (rank_of m.fsq.toNat) 6 else square_from (rank_of m.fsq.toNat) 2)) := fun e => he e.symm
              simp only [hne1, decide_False, Bool.and_false, Bool.or_false, Bool.not_false, Bool.and_true]
              rcases hkF with (hv | hv) | hv
              · simp [hv]
              · exfalso
                simp only [Bool.not_eq_false', decide_eq_true_eq] at hv
                exact hne1 hv
              · simp only [Bool.not_eq_false', decide_eq_true_eq] at hv
                refine Bool.and_eq_false_iff.mpr (Or.inr ?_)
                simp only [Bool.not_eq_false']
                exact decide_eq_true hv
          have hr : ((Position.set Z (Position.clear Z (Position.captureStage Z { P with rule50 := P.rule50 + 1 } m) P.turn (Position.piece_on P m.fsq.toNat) m.fsq.toNat) P.turn (Position.piece_on P m.fsq.toNat) m.tsq.toNat)).occupied.testBit (if m.tsq > m.fsq then square_from (rank_of m.fsq.toNat) 5 else square_from (rank_of m.fsq.toNat) 3) = false ∨ (if m.tsq > m.fsq then square_from (rank_of m.fsq.toNat) 5 else square_from (rank_of m.fsq.toNat) 3) = m.tsq.toNat := by
            by_cases he : (if m.tsq > m.fsq then square_from (rank_of m.fsq.toNat) 5 else square_from (rank_of m.fsq.toNat) 3) = m.tsq.toNat
            · exact Or.inr he
            · left
              rw [HO3]
              have hne1 : ¬(m.tsq.toNat = (if m.tsq > m.fsq then square_from (rank_of m.fsq.toNat) 5 else square_from (rank_of m.fsq.toNat) 3)) := fun e => he e.symm
              simp only [hne1, decide_False, Bool.and_false, Bool.or_false, Bool.not_false, Bool.and_true]
              rcases hrF with (hv | hv) | hv
              · simp [hv]
              · exfalso
                simp only [Bool.not_eq_false', decide_eq_true_eq] at hv
                exact hne1 hv
              · simp only [Bool.not_eq_false', decide_eq_true_eq] at hv
                refine Bool.and_eq_false_iff.mpr (Or.inr ?_)
                simp only [Bool.not_eq_false']
                exact decide_eq_true hv
          exact castle_steps_wf Z W3 hus ht64 hksq64 hrsq64 hbts hbptsK hk hr hkrne
        · next hfr =>
          exact W3
      · next hkg =>
        exact W3

/-! ### Decidability of the well-formedness invariant -/

set_option synthInstance.maxSize 2000 in
set_option synthInstance.maxHeartbeats 1000000 in
instance decWf (P : Position) : Decidable (Wf P) := by
  unfold Wf
  infer_instance

/-! ### Legal move sequences (claim C4) -/

/-- A sequence of moves, each pseudo-legal in the position reached so far. -/
def legalSeqB (Z : Zobrist) (P : Position) : List Move → Bool
  | [] => true
  | m :: ms => moveOk P m && legalSeqB Z (Position.play Z P m) ms

theorem wf_foldl_play (Z : Zobrist) : ∀ (ms : List Move) (P : Position), Wf P →
    legalSeqB Z P ms = true → Wf (List.foldl (Position.play Z) P ms) := by
  intro ms
  induction ms with
  | nil =>
    intro P h _
    exact h
  | cons m ms ih =>
    intro P h hl
    simp only [legalSeqB, Bool.and_eq_true] at hl
    exact ih (Position.play Z P m) (Wf.play Z h hl.1) hl.2

/-- The number of the two colour sets containing square `i`. -/
def colorCount (P : Position) (i : Nat) : Nat :=
  (if (P.byColor 0).testBit i then 1 else 0) + (if (P.byColor 1).testBit i then 1 else 0)

/-- The number of the six piece-kind sets containing square `i`. -/
def pieceCount (P : Position) (i : Nat) : Nat :=
  (if (P.byPiece 0).testBit i then 1 else 0) + (if (P.byPiece 1).testBit i then 1 else 0) +
  (if (P.byPiece 2).testBit i then 1 else 0) + (if (P.byPiece 3).testBit i then 1 else 0) +
  (if (P.byPiece 4).testBit i then 1 else 0) + (if (P.byPiece 5).testBit i then 1 else 0)

/-- The occupancy invariant as the spec states it: the two colour sets are
disjoint, and every occupied square is set in exactly one colour set and
exactly one piece-kind set. -/
def disjointOccupancy (P : Position) : Prop :=
  P.byColor WHITE &&& P.byColor BLACK = 0 ∧
  ∀ i, i < 64 → P.occupied.testBit i = true → colorCount P i = 1 ∧ pieceCount P i = 1

theorem wf_disjointOccupancy {P : Position} (h : Wf P) : disjointOccupancy P := by
  constructor
  · apply Nat.eq_of_testBit_eq
    intro i
    rw [Nat.testBit_land, Nat.zero_testBit]
    cases hb0 : (P.byColor WHITE).testBit i with
    | false => rw [Bool.false_and]
    | true =>
      have h1 : (P.byColor BLACK).testBit i = false := by
        cases hb1 : (P.byColor BLACK).testBit i with
        | false => rfl
        | true => exact absurd ⟨hb0, hb1⟩ (h.colors_disjoint i)
      rw [h1, Bool.and_false]
  · intro i hi hocc
    refine ⟨?_, ?_⟩
    · have hcd := h.colors_disjoint i
      have hcb : colorBit P i = true := by
        rw [← occupied_testBit]
        exact hocc
      unfold colorBit at hcb
      cases hb0 : (P.byColor 0).testBit i with
      | false =>
        cases hb1 : (P.byColor 1).testBit i with
        | false =>
          rw [hb0, hb1] at hcb
          simp at hcb
        | true => simp [colorCount, hb0, hb1]
      | true =>
        cases hb1 : (P.byColor 1).testBit i with
        | false => simp [colorCount, hb0, hb1]
        | true => exact absurd ⟨hb0, hb1⟩ hcd
    · have hpb : pieceBit P i = true := by
        rw [← h.colorBit_eq_pieceBit i, ← occupied_testBit]
        exact hocc
      have hp6 := piece_on_lt_six hpb
      have hpbit := piece_on_bit hpb
      have hother : ∀ q, q < 6 → q ≠ Position.piece_on P i →
          (P.byPiece q).testBit i = false := by
        intro q hq hne
        cases hc : (P.byPiece q).testBit i with
        | false => rfl
        | true => exact absurd ⟨hc, hpbit⟩ (h.pieces_disjoint hq hp6 hne i)
      have hcases : Position.piece_on P i = 0 ∨ Position.piece_on P i = 1 ∨
          Position.piece_on P i = 2 ∨ Position.piece_on P i = 3 ∨
          Position.piece_on P i = 4 ∨ Position.piece_on P i = 5 := by omega
      rcases hcases with e | e | e | e | e | e <;> rw [e] at hpbit hother
      · simp [pieceCount, hpbit, hother 1 (by decide) (by decide),
          hother 2 (by decide) (by decide), hother 3 (by decide) (by decide),
          hother 4 (by decide) (by decide), hother 5 (by decide) (by decide)]
      · simp [pieceCount, hpbit, hother 0 (by decide) (by decide),
          hother 2 (by decide) (by decide), hother 3 (by decide) (by decide),
          hother 4 (by decide) (by decide), hother 5 (by decide) (by decide)]
      · simp [pieceCount, hpbit, hother 0 (by decide) (by decide),
          hother 1 (by decide) (by decide), hother 3 (by decide) (by decide),
          hother 4 (by decide) (by decide), hother 5 (by decide) (by decide)]
      · simp [pieceCount, hpbit, hother 0 (by decide) (by decide),
          hother 1 (by decide) (by decide), hother 2 (by decide) (by decide),
          hother 4 (by decide) (by decide), hother 5 (by decide) (by decide)]
      · simp [pieceCount, hpbit, hother 0 (by decide) (by decide),
          hother 1 (by decide) (by decide), hother 2 (by decide) (by decide),
          hother 3 (by decide) (by decide), hother 5 (by decide) (by decide)]
      · simp [pieceCount, hpbit, hother 0 (by decide) (by decide),
          hother 1 (by decide) (by decide), hother 2 (by decide) (by decide),
          hother 3 (by decide) (by decide), hother 4 (by decide) (by decide)]

/-! ### Claim C4: the occupancy invariant along legal games -/

/-- C4: from any position assembled by `set_pos` from a well-formed
placement, after any sequence of legal `play` applications, the two colour
sets are disjoint (`byColor[WHITE] & byColor[BLACK] == 0`) and every
occupied square is set in exactly one `byColor` set and exactly one
`byPiece` set. -/
theorem c4_occupancy_invariant (Z : Zobrist) (fen : String) (ms : List Move)
    (hfen : wellFormedFEN fen = true)
    (hms : legalSeqB Z (Position.set_pos Z fen) ms = true) :
    disjointOccupancy (List.foldl (Position.play Z) (Position.set_pos Z fen) ms) :=
  wf_disjointOccupancy (wf_foldl_play Z ms (Position.set_pos Z fen) (set_pos_wf Z fen hfen) hms)

set_option maxRecDepth 1000000 in
/-- Witness for C4: the start position and the double push e2-e4. -/
theorem c4_occupancy_invariant_witness :
    wellFormedFEN startFEN = true ∧
    legalSeqB demoZ (Position.set_pos demoZ startFEN) [Move.mk 12 28 0] = true ∧
    disjointOccupancy
      (List.foldl (Position.play demoZ) (Position.set_pos demoZ startFEN) [Move.mk 12 28 0]) :=
  ⟨by decide, by decide,
    c4_occupancy_invariant demoZ startFEN [Move.mk 12 28 0] (by decide) (by decide)⟩

/-! ### Claim C8: the `rule50` counter after `play` -/

theorem Position.captureStage_rule50 (Z : Zobrist) {P : Position} (h : Wf P) (m : Move) :
    (Position.captureStage Z P m).rule50 =
      if bbTest P.occupied m.tsq.toNat then 0 else P.rule50 := by
  cases hcap : P.occupied.testBit m.tsq.toNat with
  | false =>
    have he : Position.captureStage Z P m = P := by
      unfold Position.captureStage
      simp [bbTest, hcap]
    rw [he, if_neg (by simp [bbTest, hcap] : ¬bbTest P.occupied m.tsq.toNat = true)]
  | true =>
    have hpb : pieceBit P m.tsq.toNat = true := pieceBit_of_occ h hcap
    have h6 := piece_on_lt_six hpb
    have hne6 : Position.piece_on P m.tsq.toNat ≠ NB_PIECE := by
      unfold NB_PIECE
      omega
    rw [if_pos (show bbTest P.occupied m.tsq.toNat = true from hcap)]
    by_cases hr : Position.piece_on P m.tsq.toNat = ROOK <;>
      simp [Position.captureStage, bbTest, hcap, hne6, hr,
        (show ROOK ≠ NB_PIECE from by decide)]

theorem Position.pawnStage_rule50 (Z : Zobrist) (before : Position) (us them piece : Nat)
    (m : Move) (P : Position) :
    (Position.pawnStage Z before us them piece m P).rule50 = 0 := by
  simp only [Position.pawnStage]
  repeat' split
  all_goals rfl

theorem Position.nonPawnStage_rule50 (Z : Zobrist) (before : Position) (us piece : Nat)
    (m : Move) (P : Position) :
    (Position.nonPawnStage Z before us piece m P).rule50 = P.rule50 := by
  simp only [Position.nonPawnStage]
  repeat' split
  all_goals rfl

set_option maxHeartbeats 1000000 in
/-- C8: after any `play` of a move from a well-formed position, the child's
`rule50` is `0` when the destination was occupied in the parent (a capture)
or the moving piece is a pawn, and the parent's `rule50` plus one in every
other case. -/
theorem c8_rule50_reset (Z : Zobrist) {P : Position} (m : Move) (h : Wf P) :
    (Position.play Z P m).rule50 =
      if bbTest P.occupied m.tsq.toNat = true ∨ Position.piece_on P m.fsq.toNat = PAWN
      then 0 else P.rule50 + 1 := by
  have hW : Wf { P with rule50 := P.rule50 + 1 } := h
  have hkey : (Position.play Z P m).rule50 =
      (if Position.piece_on P m.fsq.toNat = PAWN then
        Position.pawnStage Z P P.turn (opp_color P.turn) (Position.piece_on P m.fsq.toNat) m
          (Position.set Z (Position.clear Z (Position.captureStage Z
            { P with rule50 := P.rule50 + 1 } m) P.turn
            (Position.piece_on P m.fsq.toNat) m.fsq.toNat) P.turn
            (Position.piece_on P m.fsq.toNat) m.tsq.toNat)
      else
        Position.nonPawnStage Z P P.turn (Position.piece_on P m.fsq.toNat) m
          (Position.set Z (Position.clear Z (Position.captureStage Z
            { P with rule50 := P.rule50 + 1 } m) P.turn
            (Position.piece_on P m.fsq.toNat) m.fsq.toNat) P.turn
            (Position.piece_on P m.fsq.toNat) m.tsq.toNat)).rule50 := rfl
  rw [hkey]
  by_cases hp : Position.piece_on P m.fsq.toNat = PAWN
  · rw [if_pos hp, Position.pawnStage_rule50, if_pos (Or.inr hp)]
  · rw [if_neg hp, Position.nonPawnStage_rule50, Position.set_rule50, Position.clear_rule50,
      Position.captureStage_rule50 Z hW m]
    simp only [occupied_rule50]
    by_cases hocc : bbTest P.occupied m.tsq.toNat = true
    · rw [if_pos hocc, if_pos (Or.inl hocc)]
    · rw [if_neg hocc, if_neg (fun hc => hc.elim hocc hp)]

set_option maxRecDepth 1000000 in
/-- Witness for C8: the double push e2-e4 from the start position (a pawn
move without capture, so the counter resets to zero). -/
theorem c8_rule50_reset_witness :
    (Position.play demoZ (Position.set_pos demoZ startFEN) (Move.mk 12 28 0)).rule50 =
      if bbTest (Position.set_pos demoZ startFEN).occupied (Move.mk 12 28 0).tsq.toNat = true ∨
         Position.piece_on (Position.set_pos demoZ startFEN) (Move.mk 12 28 0).fsq.toNat = PAWN
      then 0 else (Position.set_pos demoZ startFEN).rule50 + 1 :=
  c8_rule50_reset demoZ (Move.mk 12 28 0) (by decide)

/-! ### Claim C2: a capture removes the actual occupant -/

set_option maxHeartbeats 1000000 in
/-- C2: when the destination of a move is occupied in the parent, the
capture block of `play` (`Position.captureStage`, through which `play` is
defined) removes exactly the piece actually standing there, under its
actual owning colour `color_on(tsq)` — which in the king-takes-rook
castling encoding may be the mover's own side, not the nominal opponent:
every `byColor` bit and every `byPiece` bit is unchanged except the
occupant colour's and occupant kind's bit at the destination square, which
are cleared; and `castlableRooks` loses the destination bit exactly when
the occupant is a rook. -/
theorem c2_capture_actual_occupant (Z : Zobrist) {P : Position} (m : Move) (h : Wf P)
    (hocc : bbTest P.occupied m.tsq.toNat = true) :
    ((Position.captureStage Z P m).byColor (Position.color_on P m.tsq.toNat)).testBit
      m.tsq.toNat = false ∧
    (∀ x i, ((Position.captureStage Z P m).byColor x).testBit i =
      ((P.byColor x).testBit i &&
        !(decide (x = Position.color_on P m.tsq.toNat) && decide (m.tsq.toNat = i)))) ∧
    (∀ x i, ((Position.captureStage Z P m).byPiece x).testBit i =
      ((P.byPiece x).testBit i &&
        !(decide (x = Position.piece_on P m.tsq.toNat) && decide (m.tsq.toNat = i)))) ∧
    (Position.captureStage Z P m).castlableRooks =
      (if Position.piece_on P m.tsq.toNat = ROOK
       then bbClear P.castlableRooks m.tsq.toNat else P.castlableRooks) := by
  have hcap : P.occupied.testBit m.tsq.toNat = true := hocc
  have hts64 : m.tsq.toNat < 64 := bit_lt_64 h.occupied_lt hcap
  have hpb : pieceBit P m.tsq.toNat = true := pieceBit_of_occ h hcap
  have h6 := piece_on_lt_six hpb
  have hne6 : Position.piece_on P m.tsq.toNat ≠ NB_PIECE := by
    unfold NB_PIECE
    omega
  have hc2 := color_on_lt_two P m.tsq.toNat
  have hred : (Position.captureStage Z P m).byColor =
      (Position.clear Z { P with rule50 := (0 : Int) } (Position.color_on P m.tsq.toNat)
        (Position.piece_on P m.tsq.toNat) m.tsq.toNat).byColor ∧
      (Position.captureStage Z P m).byPiece =
      (Position.clear Z { P with rule50 := (0 : Int) } (Position.color_on P m.tsq.toNat)
        (Position.piece_on P m.tsq.toNat) m.tsq.toNat).byPiece := by
    by_cases hr : Position.piece_on P m.tsq.toNat = ROOK <;>
      simp [Position.captureStage, bbTest, hcap, hne6, hr,
        (show ROOK ≠ NB_PIECE from by decide)] <;>
      first
      | rfl
      | exact ⟨rfl, rfl⟩
  have hB : ∀ x i, ((Position.captureStage Z P m).byColor x).testBit i =
      ((P.byColor x).testBit i &&
        !(decide (x = Position.color_on P m.tsq.toNat) && decide (m.tsq.toNat = i))) := by
    intro x i
    rw [congrFun hred.1 x]
    by_cases hx : x = Position.color_on P m.tsq.toNat
    · subst hx
      rw [testBit_clear_byColor Z { P with rule50 := (0 : Int) } _ i hts64 (h.2.1 _ hc2)]
    · rw [Position.clear_byColor, if_neg hx]
      have hxd : decide (x = Position.color_on P m.tsq.toNat) = false := by
        simp [hx]
      rw [hxd, Bool.false_and, Bool.not_false, Bool.and_true]
  have hPp : ∀ x i, ((Position.captureStage Z P m).byPiece x).testBit i =
      ((P.byPiece x).testBit i &&
        !(decide (x = Position.piece_on P m.tsq.toNat) && decide (m.tsq.toNat = i))) := by
    intro x i
    rw [congrFun hred.2 x]
    by_cases hx : x = Position.piece_on P m.tsq.toNat
    · subst hx
      rw [testBit_clear_byPiece Z { P with rule50 := (0 : Int) } _ i hts64 (h.2.2.1 _ h6)]
    · rw [Position.clear_byPiece, if_neg hx]
      have hxd : decide (x = Position.piece_on P m.tsq.toNat) = false := by
        simp [hx]
      rw [hxd, Bool.false_and, Bool.not_false, Bool.and_true]
  have hcr : (Position.captureStage Z P m).castlableRooks =
      (if Position.piece_on P m.tsq.toNat = ROOK
       then bbClear P.castlableRooks m.tsq.toNat else P.castlableRooks) := by
    by_cases hr : Position.piece_on P m.tsq.toNat = ROOK <;>
      simp [Position.captureStage, bbTest, hcap, hne6, hr,
        (show ROOK ≠ NB_PIECE from by decide)]
  refine ⟨?_, hB, hPp, hcr⟩
  rw [hB]
  simp

/-- A small position with a pawn capture available: white pawn e4, black
pawn d5, kings e1 / e8. -/
def capFEN : String := "4k3/8/8/3p4/4P3/8/8/4K3 w - - 0 1"

set_option maxRecDepth 1000000 in
/-- Witness for C2: the pawn capture e4xd5 in `capFEN`. -/
theorem c2_capture_actual_occupant_witness :
    bbTest (Position.set_pos demoZ capFEN).occupied (Move.mk 28 35 0).tsq.toNat = true ∧
    (((Position.captureStage demoZ (Position.set_pos demoZ capFEN)
        (Move.mk 28 35 0)).byColor
        (Position.color_on (Position.set_pos demoZ capFEN) (Move.mk 28 35 0).tsq.toNat)).testBit
        (Move.mk 28 35 0).tsq.toNat = false ∧
     (∀ x i, ((Position.captureStage demoZ (Position.set_pos demoZ capFEN)
        (Move.mk 28 35 0)).byColor x).testBit i =
       (((Position.set_pos demoZ capFEN).byColor x).testBit i &&
         !(decide (x = Position.color_on (Position.set_pos demoZ capFEN)
             (Move.mk 28 35 0).tsq.toNat) && decide ((Move.mk 28 35 0).tsq.toNat = i)))) ∧
     (∀ x i, ((Position.captureStage demoZ (Position.set_pos demoZ capFEN)
        (Move.mk 28 35 0)).byPiece x).testBit i =
       (((Position.set_pos demoZ capFEN).byPiece x).testBit i &&
         !(decide (x = Position.piece_on (Position.set_pos demoZ capFEN)
             (Move.mk 28 35 0).tsq.toNat) && decide ((Move.mk 28 35 0).tsq.toNat = i)))) ∧
     (Position.captureStage demoZ (Position.set_pos demoZ capFEN)
        (Move.mk 28 35 0)).castlableRooks =
       (if Position.piece_on (Position.set_pos demoZ capFEN)
            (Move.mk 28 35 0).tsq.toNat = ROOK
        then bbClear (Position.set_pos demoZ capFEN).castlableRooks
          (Move.mk 28 35 0).tsq.toNat
        else (Position.set_pos demoZ capFEN).castlableRooks)) :=
  ⟨by decide, c2_capture_actual_occupant demoZ (Move.mk 28 35 0) (by decide) (by decide)⟩

/-- A small position with the kingside castling encoding available: white
king e1, white rook h1, castling right `H`. -/
def castleFEN : String := "8/8/8/8/8/8/8/4K2R w H - 0 1"

set_option maxRecDepth 1000000 in
/-- Witness for C6: the kingside castling move encoded K(e1)xR(h1) in
`castleFEN`; the king lands on g1 (file G) and the rook on f1 (file F). -/
theorem c6_castling_relocation_witness :
    Position.piece_on (Position.set_pos demoZ castleFEN) (Move.mk 4 7 0).fsq.toNat = KING ∧
    bbTest ((Position.set_pos demoZ castleFEN).byColor
      (Position.set_pos demoZ castleFEN).turn) (Move.mk 4 7 0).tsq.toNat = true ∧
    (if (Move.mk 4 7 0).tsq > (Move.mk 4 7 0).fsq then
      bbTest ((Position.play demoZ (Position.set_pos demoZ castleFEN) (Move.mk 4 7 0)).get
        (Position.set_pos demoZ castleFEN).turn KING)
        (square_from (rank_of (Move.mk 4 7 0).fsq.toNat) 6) = true ∧
      bbTest ((Position.play demoZ (Position.set_pos demoZ castleFEN) (Move.mk 4 7 0)).get
        (Position.set_pos demoZ castleFEN).turn ROOK)
        (square_from (rank_of (Move.mk 4 7 0).fsq.toNat) 5) = true
    else
      bbTest ((Position.play demoZ (Position.set_pos demoZ castleFEN) (Move.mk 4 7 0)).get
        (Position.set_pos demoZ castleFEN).turn KING)
        (square_from (rank_of (Move.mk 4 7 0).fsq.toNat) 2) = true ∧
      bbTest ((Position.play demoZ (Position.set_pos demoZ castleFEN) (Move.mk 4 7 0)).get
        (Position.set_pos demoZ castleFEN).turn ROOK)
        (square_from (rank_of (Move.mk 4 7 0).fsq.toNat) 3) = true) :=
  ⟨by decide, by decide,
    c6_castling_relocation demoZ (Position.set_pos demoZ castleFEN) (Move.mk 4 7 0)
      (by decide) (by decide)⟩
